import Mathlib

set_option linter.unusedSectionVars false

/-!
Verification of `greedy_path_demo`: a weighted directed graph builder and a
greedy walker that repeatedly follows the cheapest outgoing edge to an
unvisited node.  The graph is embedded as an association list from each node
to its ordered list of outgoing `(target, weight)` pairs, mirroring the
insertion-order semantics of the reference graph library (a dict of dicts:
insertion order is preserved, duplicate edge insertion overwrites the weight
in place).
-/

namespace GreedyPathDemo

variable {α : Type} [DecidableEq α]

/-- A directed graph: each node paired with its ordered outgoing edges. -/
abbrev Graph (α : Type) : Type := List (α × List (α × Int))

/-- An edge of a path: (source, target, weight). -/
abbrev Edge (α : Type) : Type := α × α × Int

/-- The nodes of the graph, in insertion order. -/
def nodesOf (g : Graph α) : List α := g.map Prod.fst

/-- Node membership (`n in graph` in the reference). -/
def memNode (g : Graph α) (n : α) : Prop := n ∈ nodesOf g

instance (g : Graph α) (n : α) : Decidable (memNode g n) := by
  unfold memNode; infer_instance

/-- Outgoing edges of `u`, in insertion order (`graph.edges(u, data=True)`). -/
def outEdges (g : Graph α) (u : α) : List (α × Int) :=
  match g.find? (fun entry => entry.1 == u) with
  | some entry => entry.2
  | none => []

/-- Add a node if absent (the graph library adds endpoints implicitly). -/
def addNode (g : Graph α) (n : α) : Graph α :=
  if memNode g n then g else g ++ [(n, [])]

/-- Insert `(v, w)` into an adjacency list: overwrite the weight in place if
`v` is already a target (dict update keeps the original position), otherwise
append at the end. -/
def updateAdj : List (α × Int) → α → Int → List (α × Int)
  | [], v, w => [(v, w)]
  | p :: rest, v, w =>
      if p.1 = v then (v, w) :: rest else p :: updateAdj rest v w

/-- `add_edge u v w`: ensure both endpoints are nodes, then set the weight of
the edge `(u, v)`. -/
def add_edge (g : Graph α) (u v : α) (w : Int) : Graph α :=
  (addNode (addNode g u) v).map
    (fun entry => if entry.1 = u then (entry.1, updateAdj entry.2 v w) else entry)

/-- `build_graph`: fold `add_weighted_edges_from` over the triples. -/
def build_graph (edges : List (Edge α)) : Graph α :=
  edges.foldl (fun g t => add_edge g t.1 t.2.1 t.2.2) []

/-- The `outgoing` list of the loop body: outgoing edges of `current` whose
target is not yet visited, in edge-iteration order. -/
def candidates (g : Graph α) (visited : List α) (current : α) : List (α × Int) :=
  (outEdges g current).filter (fun p => decide (p.1 ∉ visited))

/-- `min(outgoing, key=weight)`: left fold keeping the current best, replacing
it only on strictly smaller weight, so the first minimum wins ties. -/
def foldMin (c : α × Int) (cs : List (α × Int)) : α × Int :=
  cs.foldl (fun b y => if y.2 < b.2 then y else b) c

/-- The walker's two failure kinds. -/
inductive WalkError (α : Type) : Type
  | invalidArgument : WalkError α
  | stuck : α → WalkError α
deriving DecidableEq

/-- The `while current != end` loop.  `fuel` bounds the recursion depth;
`none` means fuel ran out (shown never to happen for enough fuel).  A stuck
failure carries the stuck node together with the path accumulated so far
(both are in scope at the raise site; only the node reaches the caller). -/
def greedyLoop (g : Graph α) (e : α) (fuel : Nat) (current : α)
    (visited : List α) (path : List (Edge α)) :
    Option (Except (α × List (Edge α)) (List (Edge α))) :=
  if current = e then some (Except.ok path)
  else
    match candidates g visited current with
    | [] => some (Except.error (current, path))
    | c :: cs =>
      match fuel with
      | 0 => none
      | fuel' + 1 =>
        let sel := foldMin c cs
        greedyLoop g e fuel' sel.1 (visited ++ [sel.1])
          (path ++ [(current, sel.1, sel.2)])

/-- `greedy_path`: validate that both endpoints are nodes, then run the loop
from `start` with `visited = [start]` and an empty path.  A stuck loop error
surfaces as `WalkError.stuck` carrying only the stuck node. -/
def greedy_path (g : Graph α) (start e : α) :
    Option (Except (WalkError α) (List (Edge α))) :=
  if ¬ memNode g start ∨ ¬ memNode g e then
    some (Except.error WalkError.invalidArgument)
  else
    (greedyLoop g e (nodesOf g).length start [start] []).map
      (fun r => r.mapError (fun q => WalkError.stuck q.1))

/-- The hardcoded sample data set. -/
def SAMPLE_EDGES : List (Edge String) :=
  [("A", "B", 4), ("A", "C", 2), ("B", "C", 4), ("C", "B", 1), ("B", "D", 2),
   ("C", "D", 4), ("B", "E", 3), ("E", "D", 1), ("C", "E", 5)]

def START_NODE : String := "A"

def END_NODE : String := "E"

/-- The message of the stuck failure names the stuck node. -/
def stuckMessage (n : String) : String :=
  "Greedy algorithm stuck at node " ++ reprStr n ++ ". No unvisited outgoing edges."

/-- `chain c p e`: `p` is a connected edge chain leading from `c` to `e`. -/
def chain : α → List (Edge α) → α → Bool
  | c, [], e => c == e
  | c, t :: rest, e => c == t.1 && chain t.2.1 rest e

/-- Graph well-formedness: every edge target is a node of the graph (the
reference library guarantees this for every graph it builds). -/
def WellFormed (g : Graph α) : Prop :=
  ∀ entry ∈ g, ∀ p ∈ entry.2, memNode g p.1

instance (g : Graph α) : Decidable (WellFormed g) := by
  unfold WellFormed; infer_instance

/-- `e` is reachable from `s` by a connected chain of graph edges that
repeats no node. -/
def SimpleReach (g : Graph α) (s e : α) : Prop :=
  ∃ p : List (Edge α), chain s p e = true ∧
    (∀ t ∈ p, (t.2.1, t.2.2) ∈ outEdges g t.1) ∧
    (p.map (fun t => t.2.1)).Nodup ∧ s ∉ p.map (fun t => t.2.1)

end GreedyPathDemo

namespace GreedyPathDemo

variable {α : Type} [DecidableEq α]

/-! ### Unfolding equations for the loop -/

theorem greedyLoop_exit (g : Graph α) (e : α) (fuel : Nat) (current : α)
    (visited : List α) (path : List (Edge α)) (h : current = e) :
    greedyLoop g e fuel current visited path = some (Except.ok path) := by
  unfold greedyLoop
  rw [if_pos h]

theorem greedyLoop_stuckCase (g : Graph α) (e : α) (fuel : Nat) (current : α)
    (visited : List α) (path : List (Edge α)) (h : current ≠ e)
    (hc : candidates g visited current = []) :
    greedyLoop g e fuel current visited path = some (Except.error (current, path)) := by
  unfold greedyLoop
  rw [if_neg h, hc]

theorem greedyLoop_fuelOut (g : Graph α) (e : α) (current : α)
    (visited : List α) (path : List (Edge α)) (c : α × Int) (cs : List (α × Int))
    (h : current ≠ e) (hc : candidates g visited current = c :: cs) :
    greedyLoop g e 0 current visited path = none := by
  unfold greedyLoop
  rw [if_neg h, hc]

theorem greedyLoop_step (g : Graph α) (e : α) (fuel : Nat) (current : α)
    (visited : List α) (path : List (Edge α)) (c : α × Int) (cs : List (α × Int))
    (h : current ≠ e) (hc : candidates g visited current = c :: cs) :
    greedyLoop g e (fuel + 1) current visited path =
      greedyLoop g e fuel (foldMin c cs).1 (visited ++ [(foldMin c cs).1])
        (path ++ [(current, (foldMin c cs).1, (foldMin c cs).2)]) := by
  conv_lhs => unfold greedyLoop
  rw [if_neg h, hc]

/-! ### Properties of the minimum selection -/

theorem foldMin_cons (c y : α × Int) (ys : List (α × Int)) :
    foldMin c (y :: ys) = foldMin (if y.2 < c.2 then y else c) ys := rfl

/-- The selected element splits the candidate list into a strictly-heavier
prefix, the selection, and a no-lighter suffix: it is the first element
attaining the minimum weight. -/
theorem foldMin_first_min (cs : List (α × Int)) : ∀ c : α × Int,
    ∃ l1 l2, c :: cs = l1 ++ foldMin c cs :: l2 ∧
      (∀ x ∈ l1, (foldMin c cs).2 < x.2) ∧ (∀ x ∈ l2, (foldMin c cs).2 ≤ x.2) := by
  induction cs with
  | nil =>
    intro c
    exact ⟨[], [], rfl, by simp, by simp⟩
  | cons y ys ih =>
    intro c
    rw [foldMin_cons]
    by_cases hy : y.2 < c.2
    · rw [if_pos hy]
      obtain ⟨l1, l2, heq, h1, h2⟩ := ih y
      have hsely : (foldMin y ys).2 ≤ y.2 := by
        cases l1 with
        | nil =>
          simp only [List.nil_append, List.cons.injEq] at heq
          rw [← heq.1]
        | cons a l1' =>
          simp only [List.cons_append, List.cons.injEq] at heq
          have := h1 a (List.mem_cons_self a l1')
          rw [← heq.1] at this
          exact le_of_lt this
      refine ⟨c :: l1, l2, ?_, ?_, h2⟩
      · simpa using heq
      · intro x hx
        rcases List.mem_cons.mp hx with hx | hx
        · rw [hx]; exact lt_of_le_of_lt hsely hy
        · exact h1 x hx
    · rw [if_neg hy]
      push_neg at hy
      obtain ⟨l1, l2, heq, h1, h2⟩ := ih c
      cases l1 with
      | nil =>
        simp only [List.nil_append, List.cons.injEq] at heq
        refine ⟨[], y :: l2, ?_, by simp, ?_⟩
        · rw [List.nil_append, ← heq.1, ← heq.2]
        · intro x hx
          rcases List.mem_cons.mp hx with hx | hx
          · rw [hx, ← heq.1]; exact hy
          · exact h2 x hx
      | cons a l1' =>
        simp only [List.cons_append, List.cons.injEq] at heq
        have hac : a = c := heq.1.symm
        have hselc : (foldMin c ys).2 < c.2 := by
          have := h1 a (List.mem_cons_self a l1')
          rwa [hac] at this
        refine ⟨c :: y :: l1', l2, ?_, ?_, h2⟩
        · conv_lhs => rw [heq.2]
          simp
        · intro x hx
          rcases List.mem_cons.mp hx with hx | hx
          · rw [hx]; exact hselc
          · rcases List.mem_cons.mp hx with hx | hx
            · rw [hx]; exact lt_of_lt_of_le hselc hy
            · exact h1 x (List.mem_cons_of_mem a hx)

/-- The selection attains the minimum weight over the whole candidate list. -/
theorem foldMin_le (c : α × Int) (cs : List (α × Int)) :
    ∀ x ∈ c :: cs, (foldMin c cs).2 ≤ x.2 := by
  obtain ⟨l1, l2, heq, h1, h2⟩ := foldMin_first_min cs c
  intro x hx
  rw [heq] at hx
  rcases List.mem_append.mp hx with hx | hx
  · exact le_of_lt (h1 x hx)
  · rcases List.mem_cons.mp hx with hx | hx
    · rw [hx]
    · exact h2 x hx

/-- The selection is one of the candidates. -/
theorem foldMin_mem (c : α × Int) (cs : List (α × Int)) :
    foldMin c cs ∈ c :: cs := by
  obtain ⟨l1, l2, heq, _, _⟩ := foldMin_first_min cs c
  rw [heq]
  exact List.mem_append.mpr (Or.inr (List.mem_cons_self _ _))

/-! ### Candidates and chains -/

theorem mem_candidates {g : Graph α} {visited : List α} {current : α}
    {p : α × Int} :
    p ∈ candidates g visited current ↔ p ∈ outEdges g current ∧ p.1 ∉ visited := by
  simp [candidates, List.mem_filter]

theorem chain_append_edge (p : List (Edge α)) : ∀ (s c v : α) (w : Int),
    chain s p c = true → chain s (p ++ [(c, v, w)]) v = true := by
  induction p with
  | nil =>
    intro s c v w h
    simp [chain] at h ⊢
    exact h
  | cons t rest ih =>
    intro s c v w h
    simp only [chain, Bool.and_eq_true] at h
    simp only [List.cons_append, chain, Bool.and_eq_true]
    exact ⟨h.1, ih _ _ _ _ h.2⟩

theorem mem_outEdges_wf (g : Graph α) (hwf : WellFormed g) (u : α) (p : α × Int)
    (hp : p ∈ outEdges g u) : memNode g p.1 := by
  unfold outEdges at hp
  cases hfind : g.find? (fun entry => entry.1 == u) with
  | none => rw [hfind] at hp; simp at hp
  | some entry =>
    rw [hfind] at hp
    exact hwf entry (List.mem_of_find?_eq_some hfind) p hp

/-! ### The master invariant of the loop: any returned path is a simple
connected chain of graph edges ending at the target. -/

theorem greedyLoop_ok_inv (g : Graph α) (e s : α) : ∀ (fuel : Nat) (current : α)
    (visited : List α) (path res : List (Edge α)),
    greedyLoop g e fuel current visited path = some (Except.ok res) →
    visited.Nodup → s ∈ visited →
    (∀ x ∈ path.map (fun t => t.2.1), x ∈ visited) →
    s ∉ path.map (fun t => t.2.1) →
    (path.map (fun t => t.2.1)).Nodup →
    chain s path current = true →
    (∀ t ∈ path, (t.2.1, t.2.2) ∈ outEdges g t.1) →
    (res.map (fun t => t.2.1)).Nodup ∧ s ∉ res.map (fun t => t.2.1) ∧
      chain s res e = true ∧ ∀ t ∈ res, (t.2.1, t.2.2) ∈ outEdges g t.1 := by
  intro fuel
  induction fuel with
  | zero =>
    intro current visited path res hrun hnd hs hsub hsnot hpnd hch hedg
    by_cases hce : current = e
    · rw [greedyLoop_exit _ _ _ _ _ _ hce] at hrun
      simp only [Option.some.injEq, Except.ok.injEq] at hrun
      subst hrun
      exact ⟨hpnd, hsnot, by rwa [hce] at hch, hedg⟩
    · cases hc : candidates g visited current with
      | nil =>
        rw [greedyLoop_stuckCase _ _ _ _ _ _ hce hc] at hrun
        simp at hrun
      | cons c cs =>
        rw [greedyLoop_fuelOut _ _ _ _ _ c cs hce hc] at hrun
        simp at hrun
  | succ fuel ih =>
    intro current visited path res hrun hnd hs hsub hsnot hpnd hch hedg
    by_cases hce : current = e
    · rw [greedyLoop_exit _ _ _ _ _ _ hce] at hrun
      simp only [Option.some.injEq, Except.ok.injEq] at hrun
      subst hrun
      exact ⟨hpnd, hsnot, by rwa [hce] at hch, hedg⟩
    · cases hc : candidates g visited current with
      | nil =>
        rw [greedyLoop_stuckCase _ _ _ _ _ _ hce hc] at hrun
        simp at hrun
      | cons c cs =>
        rw [greedyLoop_step _ _ _ _ _ _ c cs hce hc] at hrun
        have hselmem : foldMin c cs ∈ candidates g visited current := by
          rw [hc]; exact foldMin_mem c cs
        obtain ⟨hout, hnotvis⟩ := mem_candidates.mp hselmem
        have htgt : (path ++ [(current, (foldMin c cs).1, (foldMin c cs).2)]).map
            (fun t => t.2.1) = path.map (fun t => t.2.1) ++ [(foldMin c cs).1] := by
          simp
        have hsubvis : ∀ x ∈ path.map (fun t => t.2.1), x ∈ visited := hsub
        refine ih (foldMin c cs).1 (visited ++ [(foldMin c cs).1])
          (path ++ [(current, (foldMin c cs).1, (foldMin c cs).2)]) res hrun
          ?_ ?_ ?_ ?_ ?_ ?_ ?_
        · rw [List.nodup_append]
          refine ⟨hnd, List.nodup_singleton _, ?_⟩
          intro a ha hamem
          rcases List.mem_singleton.mp hamem with rfl
          exact hnotvis ha
        · exact List.mem_append.mpr (Or.inl hs)
        · rw [htgt]
          intro x hx
          rcases List.mem_append.mp hx with hx | hx
          · exact List.mem_append.mpr (Or.inl (hsubvis x hx))
          · exact List.mem_append.mpr (Or.inr hx)
        · rw [htgt]
          intro hcon
          rcases List.mem_append.mp hcon with hcon | hcon
          · exact hsnot hcon
          · rcases List.mem_singleton.mp hcon with rfl
            exact hnotvis hs
        · rw [htgt, List.nodup_append]
          refine ⟨hpnd, List.nodup_singleton _, ?_⟩
          intro a ha hamem
          rcases List.mem_singleton.mp hamem with rfl
          exact hnotvis (hsubvis _ ha)
        · exact chain_append_edge path s current (foldMin c cs).1 (foldMin c cs).2 hch
        · intro t ht
          rcases List.mem_append.mp ht with ht | ht
          · exact hedg t ht
          · rcases List.mem_singleton.mp ht with rfl
            simpa using hout

/-! ### Termination: fuel equal to the node count never runs out -/

theorem greedyLoop_isSome (g : Graph α) (e : α) (hwf : WellFormed g) :
    ∀ (fuel : Nat) (current : α) (visited : List α) (path : List (Edge α)),
    visited.Nodup → (∀ x ∈ visited, x ∈ nodesOf g) →
    (nodesOf g).length < fuel + visited.length →
    (greedyLoop g e fuel current visited path).isSome := by
  intro fuel
  induction fuel with
  | zero =>
    intro current visited path hnd hsub hlt
    by_cases hce : current = e
    · rw [greedyLoop_exit _ _ _ _ _ _ hce]; rfl
    · cases hc : candidates g visited current with
      | nil => rw [greedyLoop_stuckCase _ _ _ _ _ _ hce hc]; rfl
      | cons c cs =>
        exfalso
        have hle : visited.length ≤ (nodesOf g).length :=
          (List.Nodup.subperm hnd hsub).length_le
        omega
  | succ fuel ih =>
    intro current visited path hnd hsub hlt
    by_cases hce : current = e
    · rw [greedyLoop_exit _ _ _ _ _ _ hce]; rfl
    · cases hc : candidates g visited current with
      | nil => rw [greedyLoop_stuckCase _ _ _ _ _ _ hce hc]; rfl
      | cons c cs =>
        rw [greedyLoop_step _ _ _ _ _ _ c cs hce hc]
        have hselmem : foldMin c cs ∈ candidates g visited current := by
          rw [hc]; exact foldMin_mem c cs
        obtain ⟨hout, hnotvis⟩ := mem_candidates.mp hselmem
        refine ih (foldMin c cs).1 (visited ++ [(foldMin c cs).1]) _ ?_ ?_ ?_
        · rw [List.nodup_append]
          refine ⟨hnd, List.nodup_singleton _, ?_⟩
          intro a ha hamem
          rcases List.mem_singleton.mp hamem with rfl
          exact hnotvis ha
        · intro x hx
          rcases List.mem_append.mp hx with hx | hx
          · exact hsub x hx
          · rcases List.mem_singleton.mp hx with rfl
            exact mem_outEdges_wf g hwf current _ hout
        · rw [List.length_append, List.length_singleton]
          omega

/-! ### Relating `greedy_path` to the loop -/

theorem greedy_path_run (g : Graph α) (s e : α) (hs : memNode g s)
    (he : memNode g e) :
    greedy_path g s e = (greedyLoop g e (nodesOf g).length s [s] []).map
      (fun r => r.mapError (fun q => WalkError.stuck q.1)) := by
  rw [greedy_path, if_neg]
  push_neg
  exact ⟨hs, he⟩

theorem greedy_path_ok_loop {g : Graph α} {s e : α} {p : List (Edge α)}
    (h : greedy_path g s e = some (Except.ok p)) :
    memNode g s ∧ memNode g e ∧
      greedyLoop g e (nodesOf g).length s [s] [] = some (Except.ok p) := by
  by_cases hmem : ¬ memNode g s ∨ ¬ memNode g e
  · rw [greedy_path, if_pos hmem] at h
    simp at h
  · push_neg at hmem
    refine ⟨hmem.1, hmem.2, ?_⟩
    rw [greedy_path_run g s e hmem.1 hmem.2] at h
    cases hloop : greedyLoop g e (nodesOf g).length s [s] [] with
    | none => rw [hloop] at h; simp at h
    | some r0 =>
      rw [hloop] at h
      cases r0 with
      | error q => simp [Except.mapError] at h
      | ok q => simp [Except.mapError] at h; rw [h]

theorem greedyLoop_run_isSome (g : Graph α) (e s : α) (hwf : WellFormed g)
    (hs : memNode g s) :
    (greedyLoop g e (nodesOf g).length s [s] []).isSome := by
  refine greedyLoop_isSome g e hwf (nodesOf g).length s [s] []
    (List.nodup_singleton s) ?_ ?_
  · intro x hx
    rcases List.mem_singleton.mp hx with rfl
    exact hs
  · simp

/-! ### Consequences of the chain predicate -/

theorem chain_head (p : List (Edge α)) (c e : α) (h : chain c p e = true) :
    ∀ x, p.head? = some x → x.1 = c := by
  cases p with
  | nil => intro x hx; simp at hx
  | cons t rest =>
    intro x hx
    simp only [List.head?_cons, Option.some.injEq] at hx
    subst hx
    simp only [chain, Bool.and_eq_true, beq_iff_eq] at h
    exact h.1.symm

theorem chain_consec (p : List (Edge α)) : ∀ (c e : α), chain c p e = true →
    ∀ i x y, p[i]? = some x → p[i + 1]? = some y → x.2.1 = y.1 := by
  induction p with
  | nil => intro c e _ i x y hx _; simp at hx
  | cons t rest ih =>
    intro c e h i x y hx hy
    simp only [chain, Bool.and_eq_true, beq_iff_eq] at h
    cases i with
    | zero =>
      simp only [List.getElem?_cons_zero, Option.some.injEq] at hx
      subst hx
      rw [List.getElem?_cons_succ] at hy
      cases rest with
      | nil => simp at hy
      | cons r rr =>
        simp only [List.getElem?_cons_zero, Option.some.injEq] at hy
        subst hy
        have h2 := h.2
        simp only [chain, Bool.and_eq_true, beq_iff_eq] at h2
        exact h2.1
    | succ n =>
      rw [List.getElem?_cons_succ] at hx
      rw [List.getElem?_cons_succ] at hy
      exact ih t.2.1 e h.2 n x y hx hy

theorem chain_last (p : List (Edge α)) : ∀ (c e : α), chain c p e = true →
    ∀ x, p.getLast? = some x → x.2.1 = e := by
  induction p with
  | nil => intro c e _ x hx; simp at hx
  | cons t rest ih =>
    intro c e h x hx
    simp only [chain, Bool.and_eq_true, beq_iff_eq] at h
    cases rest with
    | nil =>
      simp only [List.getLast?_singleton, Option.some.injEq] at hx
      subst hx
      have h2 := h.2
      simp only [chain, beq_iff_eq] at h2
      exact h2
    | cons r rr =>
      rw [List.getLast?_cons_cons] at hx
      exact ih t.2.1 e h.2 x hx

/-! ### The claims -/

/-- Claim C1: on the reference data set (edges `SAMPLE_EDGES`, start `A`, end `E`)
the walker traverses exactly the edges `(A,C,2)`, `(C,B,1)`, `(B,D,2)` and
then fails stuck at node `D`; no path is returned. -/
theorem sample_run_stuck_at_D :
    greedyLoop (build_graph SAMPLE_EDGES) END_NODE
        (nodesOf (build_graph SAMPLE_EDGES)).length START_NODE [START_NODE] [] =
      some (Except.error ("D", [("A", "C", 2), ("C", "B", 1), ("B", "D", 2)])) ∧
    greedy_path (build_graph SAMPLE_EDGES) START_NODE END_NODE =
      some (Except.error (WalkError.stuck "D")) :=
  ⟨rfl, rfl⟩

/-- Claim C2: each loop iteration appends the candidate edge (outgoing edge of the
current node with unvisited target) of minimum weight, and among equal-weight
candidates the first one in edge-iteration (insertion) order: every candidate
before the selected one weighs strictly more. -/
theorem greedy_step_min (g : Graph α) (e current : α) (fuel : Nat)
    (visited : List α) (path : List (Edge α)) (c : α × Int) (cs : List (α × Int))
    (hne : current ≠ e) (hc : candidates g visited current = c :: cs) :
    greedyLoop g e (fuel + 1) current visited path =
      greedyLoop g e fuel (foldMin c cs).1 (visited ++ [(foldMin c cs).1])
        (path ++ [(current, (foldMin c cs).1, (foldMin c cs).2)]) ∧
    (∀ x ∈ candidates g visited current, (foldMin c cs).2 ≤ x.2) ∧
    ∃ l1 l2, candidates g visited current = l1 ++ foldMin c cs :: l2 ∧
      ∀ x ∈ l1, (foldMin c cs).2 < x.2 := by
  refine ⟨greedyLoop_step g e fuel current visited path c cs hne hc, ?_, ?_⟩
  · rw [hc]
    exact foldMin_le c cs
  · obtain ⟨l1, l2, heq, h1, _⟩ := foldMin_first_min cs c
    exact ⟨l1, l2, by rw [hc, heq], h1⟩

theorem greedy_step_min_witness :
    greedyLoop (build_graph SAMPLE_EDGES) "E" 5 "A" ["A"] [] =
      greedyLoop (build_graph SAMPLE_EDGES) "E" 4 "C" ["A", "C"] [("A", "C", 2)] ∧
    (∀ x ∈ candidates (build_graph SAMPLE_EDGES) ["A"] "A", (2 : Int) ≤ x.2) ∧
    ∃ l1 l2, candidates (build_graph SAMPLE_EDGES) ["A"] "A" =
        l1 ++ ("C", 2) :: l2 ∧ ∀ x ∈ l1, (2 : Int) < x.2 :=
  greedy_step_min (build_graph SAMPLE_EDGES) "E" "A" 4 ["A"] [] ("B", 4)
    [("C", 2)] (by decide) rfl

/-- Claim C3: whenever the current node differs from the target and has no
outgoing edge to an unvisited node, the loop fails with the stuck error
naming the current node, and the caller receives `WalkError.stuck` with that
node and no partial path. -/
theorem greedyLoop_stuck (g : Graph α) (e : α) (fuel : Nat) (current : α)
    (visited : List α) (path : List (Edge α)) (hne : current ≠ e)
    (hc : candidates g visited current = []) :
    greedyLoop g e fuel current visited path =
        some (Except.error (current, path)) ∧
    ∀ (s n : α) (pp : List (Edge α)), memNode g s → memNode g e →
      greedyLoop g e (nodesOf g).length s [s] [] = some (Except.error (n, pp)) →
      greedy_path g s e = some (Except.error (WalkError.stuck n)) := by
  refine ⟨greedyLoop_stuckCase g e fuel current visited path hne hc, ?_⟩
  intro s n pp hs he hrun
  rw [greedy_path_run g s e hs he, hrun]
  rfl

theorem greedyLoop_stuck_witness :
    greedyLoop (build_graph SAMPLE_EDGES) "E" 2 "D" ["A", "C", "B", "D"]
        [("A", "C", 2), ("C", "B", 1), ("B", "D", 2)] =
      some (Except.error ("D", [("A", "C", 2), ("C", "B", 1), ("B", "D", 2)])) ∧
    ∀ (s n : String) (pp : List (Edge String)),
      memNode (build_graph SAMPLE_EDGES) s → memNode (build_graph SAMPLE_EDGES) "E" →
      greedyLoop (build_graph SAMPLE_EDGES) "E"
          (nodesOf (build_graph SAMPLE_EDGES)).length s [s] [] =
        some (Except.error (n, pp)) →
      greedy_path (build_graph SAMPLE_EDGES) s "E" =
        some (Except.error (WalkError.stuck n)) :=
  greedyLoop_stuck (build_graph SAMPLE_EDGES) "E" 2 "D" ["A", "C", "B", "D"]
    [("A", "C", 2), ("C", "B", 1), ("B", "D", 2)] (by decide) rfl

/-- Claim C4: if the start or the end node is absent from the graph the walker
fails with `invalidArgument` (before any traversal); if both are present it
never produces `invalidArgument`. -/
theorem greedy_path_invalid (g : Graph α) (s e : α) :
    ((¬ memNode g s ∨ ¬ memNode g e) →
      greedy_path g s e = some (Except.error WalkError.invalidArgument)) ∧
    (memNode g s → memNode g e → ∀ r, greedy_path g s e = some r →
      r ≠ Except.error WalkError.invalidArgument) := by
  constructor
  · intro h
    rw [greedy_path, if_pos h]
  · intro hs he r hr
    rw [greedy_path_run g s e hs he] at hr
    cases hloop : greedyLoop g e (nodesOf g).length s [s] [] with
    | none => rw [hloop] at hr; simp at hr
    | some r0 =>
      rw [hloop] at hr
      cases r0 with
      | error q =>
        simp only [Option.map_some', Option.some.injEq] at hr
        rw [← hr]
        simp [Except.mapError]
      | ok q =>
        simp only [Option.map_some', Option.some.injEq] at hr
        rw [← hr]
        simp [Except.mapError]

theorem greedy_path_invalid_witness :
    greedy_path (build_graph SAMPLE_EDGES) "A" "Z" =
      some (Except.error WalkError.invalidArgument) ∧
    ∀ r, greedy_path (build_graph SAMPLE_EDGES) "A" "E" = some r →
      r ≠ Except.error WalkError.invalidArgument :=
  ⟨(greedy_path_invalid (build_graph SAMPLE_EDGES) "A" "Z").1 (Or.inr (by decide)),
   fun r hr => (greedy_path_invalid (build_graph SAMPLE_EDGES) "A" "E").2
     (by decide) (by decide) r hr⟩

/-- Claim C5: for a start node present in the graph, walking from a node to itself
returns the empty path with no error. -/
theorem greedy_path_self (g : Graph α) (s : α) (hs : memNode g s) :
    greedy_path g s s = some (Except.ok []) := by
  rw [greedy_path_run g s s hs hs, greedyLoop_exit _ _ _ _ _ _ rfl]
  rfl

theorem greedy_path_self_witness :
    greedy_path (build_graph SAMPLE_EDGES) "C" "C" = some (Except.ok []) :=
  greedy_path_self (build_graph SAMPLE_EDGES) "C" (by decide)

/-- Claim C6: every returned path is simple: its target-node sequence has no
duplicates and never contains the start node. -/
theorem greedy_path_simple (g : Graph α) (s e : α) (p : List (Edge α))
    (h : greedy_path g s e = some (Except.ok p)) :
    (p.map (fun t => t.2.1)).Nodup ∧ s ∉ p.map (fun t => t.2.1) := by
  obtain ⟨hs, he, hloop⟩ := greedy_path_ok_loop h
  have hinv := greedyLoop_ok_inv g e s (nodesOf g).length s [s] [] p hloop
    (List.nodup_singleton s) (List.mem_singleton_self s) (by simp) (by simp)
    (by simp) (by simp [chain]) (by simp)
  exact ⟨hinv.1, hinv.2.1⟩

theorem greedy_path_simple_witness :
    ((([("A", "C", 2), ("C", "B", 1), ("B", "D", 2)] : List (Edge String)).map
        (fun t => t.2.1)).Nodup) ∧
    "A" ∉ ([("A", "C", 2), ("C", "B", 1), ("B", "D", 2)] : List (Edge String)).map
        (fun t => t.2.1) :=
  greedy_path_simple (build_graph SAMPLE_EDGES) "A" "D"
    [("A", "C", 2), ("C", "B", 1), ("B", "D", 2)] rfl

/-- Claim C7: every returned path is a connected chain from start to end: the
first edge leaves the start node, consecutive edges share target/source, and
a non-empty path ends at the end node. -/
theorem greedy_path_connected (g : Graph α) (s e : α) (p : List (Edge α))
    (h : greedy_path g s e = some (Except.ok p)) :
    (∀ x, p.head? = some x → x.1 = s) ∧
    (∀ i x y, p[i]? = some x → p[i + 1]? = some y → x.2.1 = y.1) ∧
    (∀ x, p.getLast? = some x → x.2.1 = e) := by
  obtain ⟨hs, he, hloop⟩ := greedy_path_ok_loop h
  have hinv := greedyLoop_ok_inv g e s (nodesOf g).length s [s] [] p hloop
    (List.nodup_singleton s) (List.mem_singleton_self s) (by simp) (by simp)
    (by simp) (by simp [chain]) (by simp)
  exact ⟨chain_head p s e hinv.2.2.1, chain_consec p s e hinv.2.2.1,
    chain_last p s e hinv.2.2.1⟩

theorem greedy_path_connected_witness :
    (∀ x, ([("A", "C", 2), ("C", "B", 1), ("B", "D", 2)] :
        List (Edge String)).head? = some x → x.1 = "A") ∧
    (∀ i x y, ([("A", "C", 2), ("C", "B", 1), ("B", "D", 2)] :
        List (Edge String))[i]? = some x →
      ([("A", "C", 2), ("C", "B", 1), ("B", "D", 2)] :
        List (Edge String))[i + 1]? = some y → x.2.1 = y.1) ∧
    (∀ x, ([("A", "C", 2), ("C", "B", 1), ("B", "D", 2)] :
        List (Edge String)).getLast? = some x → x.2.1 = "D") :=
  greedy_path_connected (build_graph SAMPLE_EDGES) "A" "D"
    [("A", "C", 2), ("C", "B", 1), ("B", "D", 2)] rfl

/-- Claim C8: on a well-formed graph with both endpoints present, if the end node
is unreachable from the start by any simple chain of graph edges, the walker
fails with the stuck error (it neither returns a path nor diverges). -/
theorem greedy_path_unreachable (g : Graph α) (s e : α) (hwf : WellFormed g)
    (hs : memNode g s) (he : memNode g e) (hur : ¬ SimpleReach g s e) :
    ∃ n, greedy_path g s e = some (Except.error (WalkError.stuck n)) := by
  obtain ⟨r0, hr0⟩ := Option.isSome_iff_exists.mp
    (greedyLoop_run_isSome g e s hwf hs)
  cases r0 with
  | ok q =>
    exfalso
    have hinv := greedyLoop_ok_inv g e s (nodesOf g).length s [s] [] q hr0
      (List.nodup_singleton s) (List.mem_singleton_self s) (by simp) (by simp)
      (by simp) (by simp [chain]) (by simp)
    exact hur ⟨q, hinv.2.2.1, hinv.2.2.2, hinv.1, hinv.2.1⟩
  | error q =>
    exact ⟨q.1, by rw [greedy_path_run g s e hs he, hr0]; rfl⟩

/-- Claim C10: on a well-formed finite graph with both endpoints present the
walker terminates with some outcome: a path or one of the two errors. -/
theorem greedy_path_terminates (g : Graph α) (s e : α) (hwf : WellFormed g)
    (hs : memNode g s) (he : memNode g e) :
    ∃ r, greedy_path g s e = some r := by
  obtain ⟨r0, hr0⟩ := Option.isSome_iff_exists.mp
    (greedyLoop_run_isSome g e s hwf hs)
  exact ⟨r0.mapError (fun q => WalkError.stuck q.1),
    by rw [greedy_path_run g s e hs he, hr0]; rfl⟩

theorem greedy_path_terminates_witness :
    ∃ r, greedy_path (build_graph SAMPLE_EDGES) "A" "E" = some r :=
  greedy_path_terminates (build_graph SAMPLE_EDGES) "A" "E" (by decide)
    (by decide) (by decide)

theorem outEdges_all_nil (g : Graph α) (hnil : ∀ entry ∈ g, entry.2 = [])
    (u : α) : outEdges g u = [] := by
  unfold outEdges
  cases hfind : g.find? (fun entry => entry.1 == u) with
  | none => rfl
  | some entry => exact hnil entry (List.mem_of_find?_eq_some hfind)

theorem greedy_path_unreachable_witness :
    ∃ n, greedy_path ([("A", []), ("C", [])] : Graph String) "A" "C" =
      some (Except.error (WalkError.stuck n)) :=
  greedy_path_unreachable ([("A", []), ("C", [])] : Graph String) "A" "C"
    (by decide) (by decide) (by decide)
    (by
      rintro ⟨p, hchain, hedges, -, -⟩
      cases p with
      | nil => simp [chain] at hchain
      | cons t rest =>
        have hmem := hedges t (List.mem_cons_self t rest)
        rw [outEdges_all_nil ([("A", []), ("C", [])] : Graph String)
          (by decide) t.1] at hmem
        simp at hmem)

/-! ### The graph builder: duplicate edge insertion overwrites in place -/

theorem outEdges_addNode (g : Graph α) (n u : α) :
    outEdges (addNode g n) u = outEdges g u := by
  unfold addNode
  split
  · rfl
  · unfold outEdges
    rw [List.find?_append]
    cases hf : g.find? (fun entry => entry.1 == u) with
    | some entry => rfl
    | none =>
      cases hfind2 : List.find? (fun entry => entry.1 == u) [(n, [])] with
      | none => rfl
      | some entry2 =>
        have hmem := List.mem_of_find?_eq_some hfind2
        rcases List.mem_singleton.mp hmem with rfl
        rfl

theorem find?_key_isSome {g : Graph α} {u : α} (h : memNode g u) :
    (g.find? (fun entry => entry.1 == u)).isSome := by
  rw [List.find?_isSome]
  rcases List.mem_map.mp h with ⟨entry, hentry, hfst⟩
  exact ⟨entry, hentry, by rw [beq_iff_eq]; exact hfst⟩

theorem memNode_addNode_self (g : Graph α) (n : α) : memNode (addNode g n) n := by
  unfold addNode
  split
  · assumption
  · unfold memNode nodesOf
    rw [List.map_append]
    exact List.mem_append.mpr (Or.inr (by simp))

theorem memNode_addNode_mono (g : Graph α) (n m : α) (h : memNode g m) :
    memNode (addNode g n) m := by
  unfold addNode
  split
  · exact h
  · unfold memNode nodesOf
    rw [List.map_append]
    exact List.mem_append.mpr (Or.inl h)

theorem outEdges_eq (g : Graph α) (u : α) :
    outEdges g u = ((g.find? (fun entry => entry.1 == u)).map Prod.snd).getD [] := by
  unfold outEdges
  cases hf : g.find? (fun entry => entry.1 == u) with
  | none => rfl
  | some entry => rfl

theorem outEdges_map_update (g1 : Graph α) (u v : α) (w : Int) (x : α)
    (hmem : memNode g1 u) :
    outEdges (g1.map (fun entry =>
        if entry.1 = u then (entry.1, updateAdj entry.2 v w) else entry)) x =
      if x = u then updateAdj (outEdges g1 x) v w else outEdges g1 x := by
  have hcomp : ((fun entry : α × List (α × Int) => entry.1 == x) ∘
      (fun entry : α × List (α × Int) =>
        if entry.1 = u then (entry.1, updateAdj entry.2 v w) else entry)) =
      (fun entry : α × List (α × Int) => entry.1 == x) := by
    funext entry
    by_cases h : entry.1 = u
    · simp [h]
    · simp [h]
  by_cases hxu : x = u
  · subst hxu
    obtain ⟨entry, hfind⟩ := Option.isSome_iff_exists.mp (find?_key_isSome hmem)
    have hkey : entry.1 = x := by
      have := List.find?_some hfind
      rwa [beq_iff_eq] at this
    rw [if_pos rfl, outEdges_eq, outEdges_eq, List.find?_map, hcomp, hfind]
    simp only [Option.map_some', Option.getD_some]
    rw [if_pos hkey]
  · rw [if_neg hxu, outEdges_eq, outEdges_eq, List.find?_map, hcomp]
    cases hfind : g1.find? (fun entry => entry.1 == x) with
    | none => rfl
    | some entry =>
      have hkey : entry.1 = x := by
        have := List.find?_some hfind
        rwa [beq_iff_eq] at this
      simp only [Option.map_some', Option.getD_some]
      rw [if_neg (by rw [hkey]; exact hxu)]

theorem outEdges_add_edge (g : Graph α) (u v : α) (w : Int) (x : α) :
    outEdges (add_edge g u v w) x =
      if x = u then updateAdj (outEdges g u) v w
      else outEdges g x := by
  unfold add_edge
  rw [outEdges_map_update _ u v w x
    (memNode_addNode_mono _ _ _ (memNode_addNode_self g u))]
  by_cases hxu : x = u
  · rw [if_pos hxu, if_pos hxu, outEdges_addNode, outEdges_addNode, hxu]
  · rw [if_neg hxu, if_neg hxu, outEdges_addNode, outEdges_addNode]

theorem updateAdj_map_fst (l : List (α × Int)) (v : α) (w : Int) :
    (updateAdj l v w).map Prod.fst =
      if v ∈ l.map Prod.fst then l.map Prod.fst else l.map Prod.fst ++ [v] := by
  induction l with
  | nil => simp [updateAdj]
  | cons p rest ih =>
    by_cases hpv : p.1 = v
    · rw [updateAdj, if_pos hpv]
      simp [hpv.symm]
    · rw [updateAdj, if_neg hpv]
      simp only [List.map_cons, ih]
      have hne : ¬ v = p.1 := fun h => hpv h.symm
      by_cases hv : v ∈ rest.map Prod.fst
      · rw [if_pos hv, if_pos (List.mem_cons.mpr (Or.inr hv))]
      · rw [if_neg hv, if_neg (by
          intro hcon
          rcases List.mem_cons.mp hcon with h | h
          · exact hne h
          · exact hv h)]
        rfl

theorem updateAdj_nodup (l : List (α × Int)) (v : α) (w : Int)
    (h : (l.map Prod.fst).Nodup) : ((updateAdj l v w).map Prod.fst).Nodup := by
  rw [updateAdj_map_fst]
  by_cases hv : v ∈ l.map Prod.fst
  · rwa [if_pos hv]
  · rw [if_neg hv, List.nodup_append]
    refine ⟨h, List.nodup_singleton _, ?_⟩
    intro a ha hamem
    rcases List.mem_singleton.mp hamem with rfl
    exact hv ha

theorem filter_key_eq_nil (l : List (α × Int)) (v : α)
    (h : v ∉ l.map Prod.fst) : l.filter (fun p => p.1 == v) = [] := by
  rw [List.filter_eq_nil_iff]
  intro a ha hcon
  rw [beq_iff_eq] at hcon
  exact h (List.mem_map.mpr ⟨a, ha, hcon⟩)

theorem filter_updateAdj_self (l : List (α × Int)) (v : α) (w : Int)
    (h : (l.map Prod.fst).Nodup) :
    (updateAdj l v w).filter (fun p => p.1 == v) = [(v, w)] := by
  induction l with
  | nil => simp [updateAdj]
  | cons p rest ih =>
    rw [List.map_cons, List.nodup_cons] at h
    by_cases hpv : p.1 = v
    · rw [updateAdj, if_pos hpv]
      rw [List.filter_cons_of_pos (by simp)]
      rw [filter_key_eq_nil rest v (by rw [← hpv]; exact h.1)]
    · rw [updateAdj, if_neg hpv]
      rw [List.filter_cons_of_neg (by simp [hpv])]
      exact ih h.2

theorem filter_updateAdj_ne (l : List (α × Int)) (v : α) (w : Int) (x : α)
    (hxv : x ≠ v) :
    (updateAdj l v w).filter (fun p => p.1 == x) =
      l.filter (fun p => p.1 == x) := by
  induction l with
  | nil =>
    rw [updateAdj]
    rw [List.filter_cons_of_neg (by simp; exact fun h => hxv h.symm)]
  | cons p rest ih =>
    by_cases hpv : p.1 = v
    · rw [updateAdj, if_pos hpv]
      rw [List.filter_cons_of_neg (by simp; exact fun h => hxv h.symm)]
      rw [List.filter_cons_of_neg (by simp [hpv]; exact fun h => hxv h.symm)]
    · rw [updateAdj, if_neg hpv]
      by_cases hpx : p.1 = x
      · rw [List.filter_cons_of_pos (by simp [hpx]),
          List.filter_cons_of_pos (by simp [hpx]), ih]
      · rw [List.filter_cons_of_neg (by simp [hpx]),
          List.filter_cons_of_neg (by simp [hpx]), ih]

/-- Adjacency lists never repeat a target (dict keys are unique). -/
def AdjNodup (g : Graph α) : Prop :=
  ∀ entry ∈ g, (entry.2.map Prod.fst).Nodup

theorem adjNodup_addNode (g : Graph α) (n : α) (h : AdjNodup g) :
    AdjNodup (addNode g n) := by
  unfold addNode
  split
  · exact h
  · intro entry hentry
    rcases List.mem_append.mp hentry with hmem | hmem
    · exact h entry hmem
    · rcases List.mem_singleton.mp hmem with rfl
      simp

theorem adjNodup_add_edge (g : Graph α) (u v : α) (w : Int) (h : AdjNodup g) :
    AdjNodup (add_edge g u v w) := by
  have h0 : AdjNodup (addNode (addNode g u) v) :=
    adjNodup_addNode _ _ (adjNodup_addNode _ _ h)
  unfold add_edge
  intro entry hentry
  rcases List.mem_map.mp hentry with ⟨entry0, hentry0, rfl⟩
  by_cases he : entry0.1 = u
  · rw [if_pos he]
    exact updateAdj_nodup _ _ _ (h0 entry0 hentry0)
  · rw [if_neg he]
    exact h0 entry0 hentry0

theorem build_graph_adjNodup (es : List (Edge α)) : AdjNodup (build_graph es) := by
  suffices h : ∀ g : Graph α, AdjNodup g →
      AdjNodup (es.foldl (fun g t => add_edge g t.1 t.2.1 t.2.2) g) by
    exact h [] (by intro entry hentry; simp at hentry)
  induction es with
  | nil => intro g hg; exact hg
  | cons t rest ih =>
    intro g hg
    exact ih _ (adjNodup_add_edge g t.1 t.2.1 t.2.2 hg)

theorem outEdges_nodup (g : Graph α) (h : AdjNodup g) (u : α) :
    ((outEdges g u).map Prod.fst).Nodup := by
  unfold outEdges
  cases hf : g.find? (fun entry => entry.1 == u) with
  | none => simp
  | some entry => exact h entry (List.mem_of_find?_eq_some hf)

/-- The list of weights the built graph carries on the ordered pair `(u,v)`
is empty when no input triple has that pair, and otherwise is exactly the
weight of the **last** such triple. -/
theorem outEdges_build_filter (es : List (Edge α)) (u v : α) :
    ((outEdges (build_graph es) u).filter (fun p => p.1 == v)).map Prod.snd =
      ((es.filter (fun t => t.1 == u && t.2.1 == v)).map
        (fun t => t.2.2)).getLast?.toList := by
  induction es using List.reverseRecOn with
  | nil => rfl
  | append_singleton l t ih =>
    obtain ⟨a, b, w0⟩ := t
    have hbuild : build_graph (l ++ [(a, b, w0)]) =
        add_edge (build_graph l) a b w0 := by
      simp [build_graph, List.foldl_append]
    rw [hbuild, outEdges_add_edge, List.filter_append]
    by_cases hu : u = a
    · subst hu
      rw [if_pos rfl]
      by_cases hv : v = b
      · subst hv
        rw [filter_updateAdj_self _ _ _
          (outEdges_nodup _ (build_graph_adjNodup l) _)]
        rw [List.filter_cons_of_pos (by simp)]
        simp
      · rw [filter_updateAdj_ne _ _ _ _ hv]
        rw [List.filter_cons_of_neg (by simp; exact fun h => hv h.symm)]
        simp only [List.filter_nil, List.append_nil]
        exact ih
    · rw [if_neg hu]
      rw [List.filter_cons_of_neg
        (by simp only [Bool.and_eq_true, beq_iff_eq, not_and]
            intro h _
            exact hu h.symm)]
      simp only [List.filter_nil, List.append_nil]
      exact ih

/-- Claim C9: when the input edge list contains two or more triples with the same
ordered `(source, target)` pair, the built graph carries exactly one edge
for that pair, and its weight is the weight of the last such triple (last
write wins). -/
theorem build_graph_last_write (es : List (Edge α)) (u v : α)
    (hdup : 2 ≤ (es.filter (fun t => t.1 == u && t.2.1 == v)).length) :
    ∃ wlast, (es.filter (fun t => t.1 == u && t.2.1 == v)).getLast? =
        some (u, v, wlast) ∧
      (outEdges (build_graph es) u).filter (fun p => p.1 == v) = [(v, wlast)] := by
  have hchar := outEdges_build_filter es u v
  have hne : es.filter (fun t => t.1 == u && t.2.1 == v) ≠ [] := by
    intro h
    rw [h] at hdup
    simp at hdup
  obtain ⟨t0, ht0⟩ := Option.isSome_iff_exists.mp (List.getLast?_isSome.mpr hne)
  have ht0mem : t0 ∈ es.filter (fun t => t.1 == u && t.2.1 == v) :=
    List.mem_of_getLast?_eq_some ht0
  have hq := (List.mem_filter.mp ht0mem).2
  rw [Bool.and_eq_true, beq_iff_eq, beq_iff_eq] at hq
  obtain ⟨a0, b0, w0⟩ := t0
  refine ⟨w0, ?_, ?_⟩
  · rw [ht0, ← hq.1, ← hq.2]
  · rw [List.getLast?_map, ht0] at hchar
    cases hL : (outEdges (build_graph es) u).filter (fun p => p.1 == v) with
    | nil =>
      rw [hL] at hchar
      simp at hchar
    | cons p rest =>
      obtain ⟨p1, p2⟩ := p
      rw [hL] at hchar
      simp only [List.map_cons, Option.map_some', Option.toList_some,
        List.cons.injEq] at hchar
      have hrest : rest = [] := List.map_eq_nil_iff.mp hchar.2
      have hpmem : (p1, p2) ∈
          (outEdges (build_graph es) u).filter (fun p => p.1 == v) := by
        rw [hL]
        exact List.mem_cons_self _ _
      have hpv : p1 = v := by
        have := (List.mem_filter.mp hpmem).2
        rwa [beq_iff_eq] at this
      rw [hrest, hpv, hchar.1]

theorem build_graph_last_write_witness :
    ∃ wlast, (([("A", "B", 4), ("A", "B", 7)] : List (Edge String)).filter
        (fun t => t.1 == "A" && t.2.1 == "B")).getLast? = some ("A", "B", wlast) ∧
      (outEdges (build_graph ([("A", "B", 4), ("A", "B", 7)] :
          List (Edge String))) "A").filter (fun p => p.1 == "B") =
        [("B", wlast)] :=
  build_graph_last_write [("A", "B", 4), ("A", "B", 7)] "A" "B" (by decide)

/-! ### Every built graph is well-formed: edge targets are always nodes -/

theorem mem_updateAdj (l : List (α × Int)) (v : α) (w : Int) (p : α × Int)
    (hp : p ∈ updateAdj l v w) : p ∈ l ∨ p = (v, w) := by
  induction l with
  | nil =>
    rw [updateAdj] at hp
    exact Or.inr (List.mem_singleton.mp hp)
  | cons q rest ih =>
    rw [updateAdj] at hp
    split at hp
    · rcases List.mem_cons.mp hp with h | h
      · exact Or.inr h
      · exact Or.inl (List.mem_cons_of_mem q h)
    · rcases List.mem_cons.mp hp with h | h
      · exact Or.inl (by rw [h]; exact List.mem_cons_self q rest)
      · rcases ih h with h | h
        · exact Or.inl (List.mem_cons_of_mem q h)
        · exact Or.inr h

theorem nodesOf_add_edge (g : Graph α) (u v : α) (w : Int) :
    nodesOf (add_edge g u v w) = nodesOf (addNode (addNode g u) v) := by
  unfold add_edge nodesOf
  rw [List.map_map]
  refine List.map_congr_left ?_
  intro entry _
  by_cases h : entry.1 = u
  · simp [h]
  · simp [h]

theorem wellFormed_addNode (g : Graph α) (n : α) (h : WellFormed g) :
    WellFormed (addNode g n) := by
  intro entry hentry p hp
  unfold addNode at hentry
  split at hentry
  · exact memNode_addNode_mono g n p.1 (h entry hentry p hp)
  · rcases List.mem_append.mp hentry with hmem | hmem
    · exact memNode_addNode_mono g n p.1 (h entry hmem p hp)
    · rcases List.mem_singleton.mp hmem with rfl
      simp at hp

theorem wellFormed_add_edge (g : Graph α) (u v : α) (w : Int)
    (h : WellFormed g) : WellFormed (add_edge g u v w) := by
  have h1 : WellFormed (addNode (addNode g u) v) :=
    wellFormed_addNode _ _ (wellFormed_addNode _ _ h)
  intro entry hentry p hp
  unfold memNode
  rw [nodesOf_add_edge]
  unfold add_edge at hentry
  rcases List.mem_map.mp hentry with ⟨entry0, hentry0, rfl⟩
  by_cases he : entry0.1 = u
  · rw [if_pos he] at hp
    rcases mem_updateAdj _ _ _ p hp with hmem | hpv
    · exact h1 entry0 hentry0 p hmem
    · rw [hpv]
      exact memNode_addNode_self (addNode g u) v
  · rw [if_neg he] at hp
    exact h1 entry0 hentry0 p hp

/-- Every graph the builder produces is well-formed, so the well-formedness
hypotheses used for termination hold for all graphs of this program. -/
theorem build_graph_wellFormed (es : List (Edge α)) :
    WellFormed (build_graph es) := by
  suffices h : ∀ g : Graph α, WellFormed g →
      WellFormed (es.foldl (fun g t => add_edge g t.1 t.2.1 t.2.2) g) by
    exact h [] (by intro entry hentry; simp at hentry)
  induction es with
  | nil => intro g hg; exact hg
  | cons t rest ih =>
    intro g hg
    exact ih _ (wellFormed_add_edge g t.1 t.2.1 t.2.2 hg)

/-- The built sample graph, with adjacency in insertion order and the
duplicate-free node set. -/
theorem build_graph_sample :
    build_graph SAMPLE_EDGES =
      [("A", [("B", 4), ("C", 2)]),
       ("B", [("C", 4), ("D", 2), ("E", 3)]),
       ("C", [("B", 1), ("D", 4), ("E", 5)]),
       ("D", []),
       ("E", [("D", 1)])] := rfl

end GreedyPathDemo
